import Mathlib

/-!
Verification of the route-discovery pipeline: a shallow embedding of the
extraction filter (`is_valid_route`, `extract_with_patterns`), the
canonicalizer (`normalize_path`, `save_routes_to_file`'s dedup/merge loop),
the prober (`test_route`), and the analyzer (`analyze_results`), together
with theorems settling the specification's claims about them.

Python strings are modelled as Lean `String`s, with all operations
implemented structurally over `List Char` so that they evaluate by kernel
reduction.  Python `None` (which can flow into the validity filter) is
modelled by `PyVal`.  Code that can raise is modelled in `Except String`.
-/

/-- A Python value that is either `None` or a string: the possible values of
a regex match group. -/
inductive PyVal where
  | none : PyVal
  | str : String → PyVal
deriving DecidableEq

/-- Python truthiness on match-group values: `None` and `""` are falsy. -/
def pyFalsy : PyVal → Bool
  | PyVal.none => true
  | PyVal.str s => s == ""

/-! ### Character/string primitives (structural models of Python `str` ops) -/

/-- `startsWithL s pat`: the char list `s` begins with `pat`
(Python `str.startswith`). -/
def startsWithL : List Char → List Char → Bool
  | _, [] => true
  | [], _ :: _ => false
  | a :: s, b :: t => a == b && startsWithL s t

/-- Python `s.startswith(pat)`. -/
def pyStartsWith (s pat : String) : Bool := startsWithL s.toList pat.toList

/-- `endsWithL s pat`: the char list `s` ends with `pat`
(Python `str.endswith`). -/
def endsWithL (s pat : List Char) : Bool :=
  (s.drop (s.length - pat.length)) == pat && decide (pat.length ≤ s.length)

/-- ASCII lowercasing of a single character (Python `str.lower`, restricted
to the ASCII range; the asset extensions compared against are all ASCII). -/
def lowerChar (c : Char) : Char :=
  if 65 ≤ c.toNat ∧ c.toNat ≤ 90 then Char.ofNat (c.toNat + 32) else c

/-- Strict lexicographic comparison of char lists by code point
(Python `str.__lt__`). -/
def listLt : List Char → List Char → Bool
  | _, [] => false
  | [], _ :: _ => true
  | a :: s, b :: t =>
    if a.toNat < b.toNat then true
    else if b.toNat < a.toNat then false
    else listLt s t

/-- `a ≤ b` on char lists, as Python defines it: `not (b < a)`. -/
def listLe (a b : List Char) : Bool := !(listLt b a)

/-- Python `a <= b` on strings (code-point lexicographic). -/
def pyStrLe (a b : String) : Bool := listLe a.toList b.toList

/-- Split a char list on the two-character separator `", "`
(Python `s.split(', ')`). -/
def splitCS : List Char → List (List Char)
  | [] => [[]]
  | ',' :: ' ' :: rest => [] :: splitCS rest
  | c :: rest =>
    match splitCS rest with
    | [] => [[c]]
    | h :: t => (c :: h) :: t

/-- Python `s.split(', ')` on strings. -/
def splitSources (s : String) : List String := (splitCS s.toList).map String.mk

/-- Python `', '.join(l)`. -/
def joinSources : List String → String
  | [] => ""
  | [s] => s
  | s :: t :: rest => s ++ ", " ++ joinSources (t :: rest)

/-- Keep the first occurrence of each string (the element set of a Python
`set(...)`, in first-seen order; callers sort the result, so only the
element set matters). -/
def dedupAux (seen : List String) : List String → List String
  | [] => []
  | a :: t => if a ∈ seen then dedupAux seen t else a :: dedupAux (a :: seen) t

/-- Deduplicate a list of strings, keeping first occurrences. -/
def dedupFirst (l : List String) : List String := dedupAux [] l

/-! ### A stable sort (model of Python's stable `sorted`/`list.sort`) -/

/-- Insert `a` into `t` directly before the first element `b` with
`le a b`; later elements that compare equal stay after `a`. -/
def sinsert (le : α → α → Bool) (a : α) : List α → List α
  | [] => [a]
  | b :: t => if le a b then a :: b :: t else b :: sinsert le a t

/-- Stable insertion sort.  Python's `sorted` is exactly the stable
ascending sort of its input, which this computes for a total preorder. -/
def ssort (le : α → α → Bool) : List α → List α
  | [] => []
  | a :: t => sinsert le a (ssort le t)

/-! ### The extractor's validity filter (`is_valid_route`) -/

/-- The fixed invalid-path set from `is_valid_route`. -/
def invalid_paths : List String := ["/", "//", ".", "./"]

/-- The static-asset extension denylist from `is_valid_route`. -/
def static_extensions : List String :=
  [".png", ".jpg", ".jpeg", ".gif", ".svg", ".ico", ".webp",
   ".css", ".scss", ".less",
   ".js", ".jsx", ".ts", ".tsx",
   ".woff", ".woff2", ".ttf", ".eot", ".otf",
   ".mp3", ".mp4", ".avi", ".mov", ".flv", ".wmv"]

/-- `[a-zA-Z0-9]` as a character test. -/
def isAsciiAlnum (c : Char) : Bool :=
  (decide (65 ≤ c.toNat) && decide (c.toNat ≤ 90)) ||
  (decide (97 ≤ c.toNat) && decide (c.toNat ≤ 122)) ||
  (decide (48 ≤ c.toNat) && decide (c.toNat ≤ 57))

/-- Tail of the filename regex after the dot:
`[a-zA-Z0-9]{2,6}(?:\?.*)?` anchored to the end of the list
(`.` does not match a newline). -/
def extTail (l : List Char) : Bool :=
  (List.range 5).any fun i =>
    let k := i + 2
    decide (k ≤ l.length) && (l.take k).all isAsciiAlnum &&
      (match l.drop k with
       | [] => true
       | c :: rest => c == '?' && rest.all (fun d => !(d == '\n')))

/-- `[^/]+\.` followed by `extTail`: a final path segment that looks like a
filename with a 2–6 character alphanumeric extension. -/
def segTail (l : List Char) : Bool :=
  (List.range l.length).any fun j =>
    decide (1 ≤ j) && (l.take j).all (fun c => !(c == '/')) &&
      (match l.drop j with
       | c :: rest => c == '.' && extTail rest
       | [] => false)

/-- A match of `/[^/]+\.[a-zA-Z0-9]{2,6}(?:\?.*)?` ending exactly at the end
of the list. -/
def searchBody (l : List Char) : Bool :=
  (List.range l.length).any fun i =>
    (match l.drop i with
     | c :: rest => c == '/' && segTail rest
     | [] => false)

/-- `re.search(r'/[^/]+\.[a-zA-Z0-9]{2,6}(?:\?.*)?$', s) is not None`.
The `$` anchor also matches just before a final newline. -/
def regexFileLike (s : String) : Bool :=
  let l := s.toList
  searchBody l ||
    (match l.getLast? with
     | some c => if c == '\n' then searchBody l.dropLast else false
     | Option.none => false)

/-- The body of `is_valid_route` on an actual string argument: the four
rejection checks, in source order. -/
def is_valid_route_str (route_path : String) : Bool :=
  if route_path ∈ invalid_paths then false
  else if route_path.toList.all (fun c => c == '.' || c == '/' || c == '\\') then false
  else if static_extensions.any
      (fun ext => endsWithL (route_path.toList.map lowerChar) ext.toList) then false
  else if regexFileLike route_path then false
  else true

/-- `is_valid_route` as the source defines it, on a possibly-`None` value.
For `None`, the membership test `route_path in invalid_paths` is `False`,
and the following generator `all(c in './\\' for c in route_path)` then
iterates over `None`, raising `TypeError`. -/
def is_valid_route : PyVal → Except String Bool
  | PyVal.str s => Except.ok (is_valid_route_str s)
  | PyVal.none => Except.error "TypeError: argument of type NoneType is not iterable"

/-! ### The extractor (`extract_with_patterns`) -/

/-- A route dict as built by `extract_routes_from_js` and consumed by
`save_routes_to_file`.  `name = Option.none` means the dict has no
`'name'` key; `name = some v` means the key is present with value `v`. -/
structure Route where
  type : String
  name : Option PyVal := Option.none
  path : String
  source_file : String
deriving DecidableEq

/-- `route_path.startswith(('http://', 'https://', 'ws://', 'wss://'))`. -/
def startsWithScheme (s : String) : Bool :=
  pyStartsWith s "http://" || pyStartsWith s "https://" ||
  pyStartsWith s "ws://" || pyStartsWith s "wss://"

/-- The per-match body of `extract_with_patterns`.  `groups` is
`match.groups()`.  With more than one group (a named-route rule), the path
is only passed through `is_valid_route`; with a single group, the guard
`route_path and not route_path.startswith((...)) and is_valid_route(...)`
applies, short-circuiting on a falsy path. -/
def processMatch (route_type relative_path : String) (groups : List PyVal) :
    Except String (List Route) :=
  match groups with
  | g1 :: g2 :: _ =>
    match g2 with
    | PyVal.none =>
      Except.error "TypeError: argument of type NoneType is not iterable"
    | PyVal.str route_path =>
      if is_valid_route_str route_path then
        Except.ok [{ type := route_type, name := Option.some g1,
                     path := route_path, source_file := relative_path }]
      else Except.ok []
  | [g1] =>
    match g1 with
    | PyVal.none => Except.ok []
    | PyVal.str route_path =>
      if route_path = "" then Except.ok []
      else if startsWithScheme route_path then Except.ok []
      else if is_valid_route_str route_path then
        Except.ok [{ type := route_type, name := Option.none,
                     path := route_path, source_file := relative_path }]
      else Except.ok []
  | [] => Except.error "IndexError: no such group"

/-- `extract_with_patterns` for one rule group, given the group tuples of
all regex matches over the source text, accumulating surviving candidates
in order (an exception raised on one match aborts the scan, as in the
source). -/
def extract_with_patterns (route_type relative_path : String)
    (ms : List (List PyVal)) : Except String (List Route) :=
  ms.foldlM
    (fun routes gs => do
      let new ← processMatch route_type relative_path gs
      pure (routes ++ new))
    []

/-! ### The canonicalizer (`save_routes_to_file`'s dedup/merge loop) -/

/-- One pass of `re.sub(r'/+', '/', path)`: `prevSlash` records whether the
previously emitted character was `'/'` (i.e. we are inside a run). -/
def collapseAux : Bool → List Char → List Char
  | _, [] => []
  | prevSlash, c :: rest =>
    if c = '/' then
      if prevSlash then collapseAux true rest
      else c :: collapseAux true rest
    else c :: collapseAux false rest

/-- `re.sub(r'/+', '/', path)`: collapse every run of slashes to one. -/
def collapseSlash (l : List Char) : List Char := collapseAux false l

/-- Python `path.rstrip('/')`. -/
def rstripSlash (l : List Char) : List Char :=
  (l.reverse.dropWhile (fun c => c == '/')).reverse

/-- `normalize_path` from `save_routes_to_file`: collapse slash runs, then
strip the trailing slash unless the result is a single character. -/
def normalize_path (s : String) : String :=
  let p := collapseSlash s.toList
  if 1 < p.length ∧ p.getLast? = some '/' then String.mk (rstripSlash p)
  else String.mk p

/-- First half of the merge (source lines 148–152): if the incoming
candidate's source file is not among the record's sources, union it in and
re-serialize the source set as the sorted `", "`-join. -/
def mergeSourcesR (existing route : Route) : Route :=
  let existing_sources := splitSources existing.source_file
  if route.source_file ∈ existing_sources then existing
  else { existing with
         source_file :=
           joinSources (ssort pyStrLe (dedupFirst (route.source_file :: existing_sources))) }

/-- Second half of the merge (source lines 154–156): adopt the incoming
candidate's name when it has a `'name'` key and the record either has no
`'name'` key or a falsy name value. -/
def mergeNameR (r1 route : Route) : Route :=
  match route.name with
  | Option.none => r1
  | Option.some v =>
    match r1.name with
    | Option.none => { r1 with name := Option.some v }
    | Option.some ev => if pyFalsy ev then { r1 with name := Option.some v } else r1

/-- The merge applied when an incoming candidate's normalized path is
already in `unique_routes` (source lines 147–156): union the source files,
then resolve the name. -/
def mergeRoute (existing route : Route) : Route :=
  mergeNameR (mergeSourcesR existing route) route

/-- Lookup in the insertion-ordered dict `unique_routes`. -/
def assocFind : List (String × Route) → String → Option Route
  | [], _ => Option.none
  | (k, v) :: rest, key => if k = key then Option.some v else assocFind rest key

/-- In-place update of the value at `key` (dict assignment to an existing
key keeps its position). -/
def assocUpdate : List (String × Route) → String → Route → List (String × Route)
  | [], _, _ => []
  | (k, v) :: rest, key, nv =>
    if k = key then (k, nv) :: rest else (k, v) :: assocUpdate rest key nv

/-- The loop body for one candidate: normalize its path, write the
normalized path back into the dict (`route['path'] = path`), then either
insert it as a fresh record or merge it into the existing one. -/
def insertRoute (acc : List (String × Route)) (route : Route) :
    List (String × Route) :=
  let path := normalize_path route.path
  let route2 := { route with path := path }
  match assocFind acc path with
  | Option.none => acc ++ [(path, route2)]
  | Option.some existing => assocUpdate acc path (mergeRoute existing route2)

/-- The whole dedup loop of `save_routes_to_file`: fold every file's
candidate list, in file order, into the insertion-ordered `unique_routes`
dict. -/
def canonicalize (routes : List (List Route)) : List (String × Route) :=
  routes.foldl (fun acc file_routes => file_routes.foldl insertRoute acc) []

/-- `sorted(unique_routes.values(), key=lambda x: x['path'])`. -/
def routeLe (a b : Route) : Bool := pyStrLe a.path b.path

/-- The serialized artifact's record sequence: the canonical inventory,
sorted ascending by normalized path. -/
def final_routes (routes : List (List Route)) : List Route :=
  ssort routeLe ((canonicalize routes).map Prod.snd)

/-! ### The prober (`test_route`) -/

/-- One probe's outcome record, as `test_route` returns it.  The float
`response_time` is modelled as a rational: the code only stores it, never
computes with it. -/
structure ProbeResult where
  url : String
  status_code : Int
  content_length : Int
  response_time : Rat
  error : Option String := Option.none
deriving DecidableEq

/-- The outcome of `int(response.headers.get('Content-Length', ...))` when
the header is present: either a parsed integer or a `ValueError` from a
garbage header value (`int()` parsing is Python stdlib behaviour, taken as
an oracle). -/
inductive HeaderCL where
  | absent : HeaderCL
  | val : Int → HeaderCL
  | bad : String → HeaderCL
deriving DecidableEq

/-- The fields of a `requests` response that `test_route` reads. -/
structure HttpResponse where
  status_code : Int
  body_len : Nat
  cl_header : HeaderCL
  elapsed : Rat
deriving DecidableEq

/-- What `requests.get(url, timeout=10, verify=False)` did: returned a
response, or raised (timeout, connection refused, DNS failure, TLS
failure, ...). -/
inductive GetOutcome where
  | ok : HttpResponse → GetOutcome
  | exc : String → GetOutcome
deriving DecidableEq

/-- `urljoin(base_url.rstrip('/') + '/', path.lstrip('/'))` for the
origin-relative references this pipeline produces: the base (with exactly
one trailing slash) followed by the path with leading slashes stripped.
No claim inspects the url beyond it being a single string. -/
def probe_url (base_url path : String) : String :=
  String.mk (rstripSlash base_url.toList) ++ "/" ++
    String.mk (path.toList.dropWhile (fun c => c == '/'))

/-- `test_route`: the `try` branch reads status code, content length
(preferring the `Content-Length` header, else the body length) and elapsed
time; the bare `except` turns any raised exception into the zeroed failure
record with a populated `error`. -/
def test_route (base_url path : String) (net : GetOutcome) : ProbeResult :=
  let url := probe_url base_url path
  match net with
  | GetOutcome.exc e =>
    { url := url, status_code := 0, content_length := 0,
      response_time := 0, error := Option.some e }
  | GetOutcome.ok r =>
    match r.cl_header with
    | HeaderCL.bad e =>
      { url := url, status_code := 0, content_length := 0,
        response_time := 0, error := Option.some e }
    | HeaderCL.absent =>
      { url := url, status_code := r.status_code,
        content_length := Int.ofNat r.body_len,
        response_time := r.elapsed, error := Option.none }
    | HeaderCL.val k =>
      { url := url, status_code := r.status_code, content_length := k,
        response_time := r.elapsed, error := Option.none }

/-- Probing a whole path set: one `test_route` call per path (the thread
pool changes completion order, not the multiset of results; `net` gives
each path's network outcome). -/
def runProbes (base_url : String) (paths : List String)
    (net : String → GetOutcome) : List ProbeResult :=
  paths.map (fun p => test_route base_url p (net p))

/-! ### The analyzer (`analyze_results`) -/

/-- `length_count[len]`: how many results have this content length. -/
def length_count (results : List ProbeResult) (len : Int) : Nat :=
  (results.filter (fun r => r.content_length == len)).length

/-- Membership in `unique_lengths`: the occurrence count lies in `[1, 5]`. -/
def interestingLength (results : List ProbeResult) (len : Int) : Bool :=
  decide (1 ≤ length_count results len) && decide (length_count results len ≤ 5)

/-- Comparison used by `unique_pages.sort(key=lambda x: x['content_length'])`. -/
def probeLe (a b : ProbeResult) : Bool :=
  decide (a.content_length ≤ b.content_length)

/-- `unique_pages`: results whose content length is in an interesting
bucket, sorted ascending by content length (Python's sort is stable). -/
def unique_pages (results : List ProbeResult) : List ProbeResult :=
  ssort probeLe
    (results.filter (fun r => interestingLength results r.content_length))

/-- Append `r` to the list at `key` in the insertion-ordered
`defaultdict(list)`, creating the key at the end on first touch. -/
def appendAt : List (Int × List ProbeResult) → Int → ProbeResult →
    List (Int × List ProbeResult)
  | [], key, r => [(key, [r])]
  | (k, rs) :: rest, key, r =>
    if k = key then (k, rs ++ [r]) :: rest else (k, rs) :: appendAt rest key r

/-- `non_404_pages`: every result whose status code is not 404, grouped by
status code, keys in first-encounter order, each group in encounter
order. -/
def non_404_pages (results : List ProbeResult) : List (Int × List ProbeResult) :=
  results.foldl
    (fun acc r => if r.status_code ≠ 404 then appendAt acc r.status_code r else acc)
    []

/-- `analyze_results`: the pair `(unique_pages, non_404_pages)`. -/
def analyze_results (results : List ProbeResult) :
    List ProbeResult × List (Int × List ProbeResult) :=
  (unique_pages results, non_404_pages results)

/-- Read a status code's group out of the grouping (an absent key reads as
the empty group). -/
def lookupPages : List (Int × List ProbeResult) → Int → List ProbeResult
  | [], _ => []
  | (k, rs) :: rest, key => if k = key then rs else lookupPages rest key

/-! ### Lemmas about the stable sort -/

theorem sinsert_perm (le : α → α → Bool) (a : α) (t : List α) :
    (sinsert le a t).Perm (a :: t) := by
  induction t with
  | nil => simp [sinsert]
  | cons b t ih =>
    simp only [sinsert]
    by_cases hle : le a b = true
    · simp [hle]
    · simp only [hle, if_false]
      exact (ih.cons b).trans (List.Perm.swap a b t)

theorem ssort_perm (le : α → α → Bool) (l : List α) : (ssort le l).Perm l := by
  induction l with
  | nil => simp [ssort]
  | cons a t ih => exact (sinsert_perm le a (ssort le t)).trans (ih.cons a)

theorem mem_sinsert (le : α → α → Bool) (a x : α) (t : List α) :
    x ∈ sinsert le a t ↔ x = a ∨ x ∈ t := by
  rw [(sinsert_perm le a t).mem_iff, List.mem_cons]

theorem mem_ssort (le : α → α → Bool) (x : α) (l : List α) :
    x ∈ ssort le l ↔ x ∈ l := (ssort_perm le l).mem_iff

theorem sinsert_pairwise (le : α → α → Bool)
    (htr : ∀ a b c, le a b = true → le b c = true → le a c = true)
    (hto : ∀ a b, le a b = true ∨ le b a = true)
    (a : α) (t : List α) (h : t.Pairwise (fun x y => le x y = true)) :
    (sinsert le a t).Pairwise (fun x y => le x y = true) := by
  induction t with
  | nil => simp [sinsert]
  | cons b t ih =>
    rw [List.pairwise_cons] at h
    obtain ⟨hb, ht⟩ := h
    simp only [sinsert]
    by_cases hle : le a b = true
    · simp only [hle, if_true]
      refine List.Pairwise.cons ?_ (List.Pairwise.cons hb ht)
      intro x hx
      rcases List.mem_cons.mp hx with rfl | hx
      · exact hle
      · exact htr a b x hle (hb x hx)
    · simp only [hle, if_false]
      refine List.Pairwise.cons ?_ (ih ht)
      intro x hx
      rcases (mem_sinsert le a x t).mp hx with rfl | hx
      · rcases hto x b with h1 | h1
        · exact absurd h1 hle
        · exact h1
      · exact hb x hx

theorem ssort_pairwise (le : α → α → Bool)
    (htr : ∀ a b c, le a b = true → le b c = true → le a c = true)
    (hto : ∀ a b, le a b = true ∨ le b a = true) (l : List α) :
    (ssort le l).Pairwise (fun x y => le x y = true) := by
  induction l with
  | nil => simp [ssort]
  | cons a t ih => exact sinsert_pairwise le htr hto a (ssort le t) ih

theorem sinsert_filter_pos (le : α → α → Bool) (p : α → Bool) (a : α)
    (t : List α) (hpa : p a = true) (hcl : ∀ b ∈ t, p b = true → le a b = true) :
    (sinsert le a t).filter p = a :: t.filter p := by
  induction t with
  | nil => simp [sinsert, hpa]
  | cons b t ih =>
    simp only [sinsert]
    by_cases hle : le a b = true
    · simp [hle, hpa]
    · have hpb : p b = false := by
        cases hb : p b with
        | false => rfl
        | true => exact absurd (hcl b (List.mem_cons_self b t) hb) hle
      simp only [hle, if_false, List.filter_cons, hpb, Bool.false_eq_true, if_false]
      exact ih (fun x hx hpx => hcl x (List.mem_cons_of_mem b hx) hpx)

theorem sinsert_filter_neg (le : α → α → Bool) (p : α → Bool) (a : α)
    (t : List α) (hpa : p a = false) :
    (sinsert le a t).filter p = t.filter p := by
  induction t with
  | nil => simp [sinsert, hpa]
  | cons b t ih =>
    simp only [sinsert]
    by_cases hle : le a b = true
    · simp [hle, hpa]
    · simp only [hle, if_false]
      cases hpb : p b <;> simp [List.filter_cons, hpb, ih]

theorem ssort_filter_class (le : α → α → Bool) (p : α → Bool) (l : List α)
    (hcl : ∀ x ∈ l, ∀ y ∈ l, p x = true → p y = true → le x y = true) :
    (ssort le l).filter p = l.filter p := by
  induction l with
  | nil => simp [ssort]
  | cons a t ih =>
    simp only [ssort]
    have ihr := ih (fun x hx y hy hpx hpy =>
      hcl x (List.mem_cons_of_mem a hx) y (List.mem_cons_of_mem a hy) hpx hpy)
    cases hpa : p a with
    | true =>
      rw [sinsert_filter_pos le p a (ssort le t) hpa ?_, ihr]
      · simp [List.filter_cons, hpa]
      · intro b hb hpb
        exact hcl a (List.mem_cons_self a t)
          b (List.mem_cons_of_mem a ((mem_ssort le b t).mp hb)) hpa hpb
    | false =>
      rw [sinsert_filter_neg le p a (ssort le t) hpa, ihr]
      simp [List.filter_cons, hpa]

/-! ### Order facts about the code-point lexicographic comparison -/

theorem listLt_asymm : ∀ (a b : List Char),
    listLt a b = true → listLt b a = true → False
  | [], [], h1, _ => by simp [listLt] at h1
  | [], _ :: _, _, h2 => by simp [listLt] at h2
  | _ :: _, [], h1, _ => by simp [listLt] at h1
  | x :: s, y :: t, h1, h2 => by
    simp only [listLt] at h1 h2
    by_cases hxy : x.toNat < y.toNat
    · have hyx : ¬ y.toNat < x.toNat := by omega
      simp [hxy, hyx] at h2
    · by_cases hyx : y.toNat < x.toNat
      · simp [hxy, hyx] at h1
      · simp only [hxy, hyx, if_false] at h1 h2
        exact listLt_asymm s t h1 h2

/-- If `c < a` then for any `b`, `b < a` or `c < b`: the strict order is a
strict weak order. -/
theorem listLt_step : ∀ (comp a b : List Char), listLt comp a = true →
    listLt b a = true ∨ listLt comp b = true
  | _ :: _, [], _, h => by simp [listLt] at h
  | [], [], _, h => by simp [listLt] at h
  | [], x :: s, [], _ => Or.inl (by simp [listLt])
  | [], x :: s, _ :: _, _ => Or.inr (by simp [listLt])
  | z :: u, x :: s, [], _ => Or.inl (by simp [listLt])
  | z :: u, x :: s, y :: t, h => by
    simp only [listLt] at h
    by_cases hzx : z.toNat < x.toNat
    · by_cases hyx : y.toNat < x.toNat
      · exact Or.inl (by simp [listLt, hyx])
      · have hzy : z.toNat < y.toNat := by omega
        exact Or.inr (by simp [listLt, hzy])
    · by_cases hxz : x.toNat < z.toNat
      · simp [hzx, hxz] at h
      · simp only [hzx, hxz, if_false] at h
        by_cases hyx : y.toNat < x.toNat
        · exact Or.inl (by simp [listLt, hyx])
        · by_cases hxy : x.toNat < y.toNat
          · have hzy : z.toNat < y.toNat := by omega
            exact Or.inr (by simp [listLt, hzy])
          · rcases listLt_step u s t h with h' | h'
            · refine Or.inl ?_
              simp only [listLt]
              have h1 : ¬ y.toNat < x.toNat := hyx
              have h2 : ¬ x.toNat < y.toNat := hxy
              simp [h1, h2, h']
            · refine Or.inr ?_
              simp only [listLt]
              have h1 : ¬ z.toNat < y.toNat := by omega
              have h2 : ¬ y.toNat < z.toNat := by omega
              simp [h1, h2, h']

theorem listLe_total (a b : List Char) :
    listLe a b = true ∨ listLe b a = true := by
  by_cases h1 : listLt b a = true
  · by_cases h2 : listLt a b = true
    · exact absurd (listLt_asymm a b h2 h1) (by simp)
    · exact Or.inr (by simp [listLe, h2])
  · exact Or.inl (by simp [listLe, h1])

theorem listLe_trans (a b comp : List Char) (h1 : listLe a b = true)
    (h2 : listLe b comp = true) : listLe a comp = true := by
  simp only [listLe, Bool.not_eq_true'] at h1 h2 ⊢
  by_cases h : listLt comp a = true
  · rcases listLt_step comp a b h with h' | h'
    · rw [h'] at h1; exact absurd h1 (by simp)
    · rw [h'] at h2; exact absurd h2 (by simp)
  · simpa using h

theorem pyStrLe_total (a b : String) :
    pyStrLe a b = true ∨ pyStrLe b a = true := listLe_total a.toList b.toList

theorem pyStrLe_trans (a b comp : String) (h1 : pyStrLe a b = true)
    (h2 : pyStrLe b comp = true) : pyStrLe a comp = true :=
  listLe_trans a.toList b.toList comp.toList h1 h2

/-! ### Lemmas about slash collapsing and `normalize_path` -/

/-- "Not a double separator": the relation that holds between adjacent
characters of a path with no `//` run. -/
def noDS (a b : Char) : Prop := ¬(a = '/' ∧ b = '/')

theorem collapseAux_head : ∀ (l : List Char),
    (collapseAux true l).head? ≠ some '/'
  | [] => by simp [collapseAux]
  | c :: rest => by
    by_cases hc : c = '/'
    · simpa [collapseAux, hc] using collapseAux_head rest
    · simp [collapseAux, hc, hc]

theorem collapseAux_step_slash (rest : List Char) :
    collapseAux false ('/' :: rest) = '/' :: collapseAux true rest := by
  simp [collapseAux]

theorem collapseAux_step_skip (rest : List Char) :
    collapseAux true ('/' :: rest) = collapseAux true rest := by
  simp [collapseAux]

theorem collapseAux_step_other (b : Bool) (c : Char) (rest : List Char)
    (hc : ¬ c = '/') :
    collapseAux b (c :: rest) = c :: collapseAux false rest := by
  simp [collapseAux, hc]

theorem collapseAux_chain : ∀ (l : List Char) (b : Bool),
    List.Chain' noDS (collapseAux b l)
  | [], _ => by simp [collapseAux]
  | c :: rest, b => by
    by_cases hc : c = '/'
    · subst hc
      cases b with
      | true => rw [collapseAux_step_skip]; exact collapseAux_chain rest true
      | false =>
        rw [collapseAux_step_slash, List.chain'_cons']
        refine ⟨?_, collapseAux_chain rest true⟩
        intro y hy hcontra
        exact collapseAux_head rest (by rw [hy]; exact congrArg some hcontra.2)
    · rw [collapseAux_step_other b c rest hc, List.chain'_cons']
      refine ⟨?_, collapseAux_chain rest false⟩
      intro y _ hcontra
      exact hc hcontra.1

theorem collapseAux_id : ∀ (l : List Char) (b : Bool),
    List.Chain' noDS l → (b = true → l.head? ≠ some '/') →
    collapseAux b l = l
  | [], _, _, _ => by simp [collapseAux]
  | c :: rest, b, hch, hb => by
    rw [List.chain'_cons'] at hch
    obtain ⟨hhead, hrest⟩ := hch
    by_cases hc : c = '/'
    · subst hc
      cases b with
      | true => exact absurd (by simp) (hb rfl)
      | false =>
        rw [collapseAux_step_slash]
        have hrid : collapseAux true rest = rest := by
          apply collapseAux_id rest true hrest
          intro _ hcon
          rcases hr : rest.head? with _ | y
          · rw [hr] at hcon; exact Option.noConfusion hcon
          · rw [hr] at hcon
            exact hhead y hr ⟨rfl, Option.some.inj hcon⟩
        rw [hrid]
    · rw [collapseAux_step_other b c rest hc,
        collapseAux_id rest false hrest (by simp)]

theorem collapseSlash_chain (l : List Char) :
    List.Chain' noDS (collapseSlash l) := collapseAux_chain l false

theorem collapseSlash_of_chain (l : List Char) (h : List.Chain' noDS l) :
    collapseSlash l = l := collapseAux_id l false h (by simp)

theorem dropWhile_head_not (p : α → Bool) :
    ∀ (l : List α) (c : α), (l.dropWhile p).head? = some c → p c = false
  | [], c, h => by simp [List.dropWhile] at h
  | a :: t, c, h => by
    by_cases hpa : p a = true
    · rw [List.dropWhile_cons, if_pos hpa] at h
      exact dropWhile_head_not p t c h
    · rw [List.dropWhile_cons, if_neg hpa] at h
      simp only [List.head?_cons, Option.some.injEq] at h
      rw [← h]
      exact Bool.not_eq_true _ ▸ (by simpa using hpa)

theorem rstripSlash_isPrefix (l : List Char) : rstripSlash l <+: l := by
  have h1 : l.reverse.dropWhile (fun c => c == '/') <:+ l.reverse :=
    List.dropWhile_suffix _
  have h2 := List.reverse_prefix.mpr h1
  rwa [List.reverse_reverse] at h2

theorem rstripSlash_getLast (l : List Char) (c : Char)
    (h : (rstripSlash l).getLast? = some c) : c ≠ '/' := by
  rw [rstripSlash, List.getLast?_reverse] at h
  have := dropWhile_head_not (fun c => c == '/') l.reverse c h
  simpa using this

theorem toList_mk (l : List Char) : (String.mk l).toList = l := rfl

theorem normalize_mk_of_chain (l : List Char) (h : List.Chain' noDS l) :
    normalize_path (String.mk l) =
      if 1 < l.length ∧ l.getLast? = some '/' then String.mk (rstripSlash l)
      else String.mk l := by
  simp only [normalize_path, toList_mk, collapseSlash_of_chain l h]

theorem short_ends_slash (l : List Char) (hlen : ¬ 1 < l.length)
    (hg : l.getLast? = some '/') : l = ['/'] := by
  rcases l with _ | ⟨a, t⟩
  · exact Option.noConfusion hg
  · rcases t with _ | ⟨b, u⟩
    · simp only [List.getLast?_singleton, Option.some.injEq] at hg
      rw [hg]
    · exfalso
      apply hlen
      simp only [List.length_cons]
      omega

/-- C6: path normalization collapses every run of consecutive separators
into one (no `//` remains adjacent in the output), strips a trailing
separator unless the path is exactly the root separator, and is
idempotent: `normalize_path (normalize_path p) = normalize_path p` for
every path `p`. -/
theorem c6_normalize_idempotent (p : String) :
    List.Chain' noDS (normalize_path p).toList
    ∧ ((normalize_path p).toList.getLast? = some '/' → normalize_path p = "/")
    ∧ normalize_path (normalize_path p) = normalize_path p := by
  have hch : List.Chain' noDS (collapseSlash p.toList) := collapseSlash_chain _
  have hmain : normalize_path p =
      if 1 < (collapseSlash p.toList).length ∧
          (collapseSlash p.toList).getLast? = some '/' then
        String.mk (rstripSlash (collapseSlash p.toList))
      else String.mk (collapseSlash p.toList) := by
    simp only [normalize_path]
  by_cases h : 1 < (collapseSlash p.toList).length ∧
      (collapseSlash p.toList).getLast? = some '/'
  · have hnp : normalize_path p = String.mk (rstripSlash (collapseSlash p.toList)) := by
      rw [hmain, if_pos h]
    have hqch : List.Chain' noDS (rstripSlash (collapseSlash p.toList)) :=
      hch.prefix (rstripSlash_isPrefix _)
    refine ⟨?_, ?_, ?_⟩
    · rw [hnp, toList_mk]
      exact hqch
    · intro hg
      rw [hnp, toList_mk] at hg
      exact absurd rfl (rstripSlash_getLast _ '/' hg)
    · rw [hnp, normalize_mk_of_chain _ hqch, if_neg ?_]
      rintro ⟨-, hg⟩
      exact absurd rfl (rstripSlash_getLast _ '/' hg)
  · have hnp : normalize_path p = String.mk (collapseSlash p.toList) := by
      rw [hmain, if_neg h]
    refine ⟨?_, ?_, ?_⟩
    · rw [hnp, toList_mk]
      exact hch
    · intro hg
      rw [hnp, toList_mk] at hg
      have hlen : ¬ 1 < (collapseSlash p.toList).length := fun hlt => h ⟨hlt, hg⟩
      rw [hnp, short_ends_slash _ hlen hg]
    · rw [hnp, normalize_mk_of_chain _ hch, if_neg h]

/-- Witness for C6 at concrete paths: `"///"` normalizes to the root
separator (discharging the trailing-separator hypothesis), and
normalization of `"/a//b/"` is idempotent. -/
theorem c6_witness :
    normalize_path "///" = "/"
    ∧ normalize_path (normalize_path "/a//b/") = normalize_path "/a//b/" :=
  ⟨(c6_normalize_idempotent "///").2.1 (by decide),
   (c6_normalize_idempotent "/a//b/").2.2⟩

/-! ### Lemmas about the dedup dictionary -/

theorem assocFind_eq_none (acc : List (String × Route)) (k : String) :
    assocFind acc k = Option.none ↔ k ∉ acc.map Prod.fst := by
  induction acc with
  | nil => simp [assocFind]
  | cons pr rest ih =>
    obtain ⟨k1, v1⟩ := pr
    simp only [assocFind, List.map_cons, List.mem_cons]
    by_cases h : k1 = k
    · simp [h]
    · simp [h, ih, Ne.symm h]

theorem assocFind_some_mem (acc : List (String × Route)) (k : String)
    (v : Route) (h : assocFind acc k = Option.some v) : (k, v) ∈ acc := by
  induction acc with
  | nil => simp [assocFind] at h
  | cons pr rest ih =>
    obtain ⟨k1, v1⟩ := pr
    simp only [assocFind] at h
    by_cases hk : k1 = k
    · rw [if_pos hk] at h
      injection h with hv
      subst hv
      subst hk
      exact List.mem_cons_self _ _
    · rw [if_neg hk] at h
      exact List.mem_cons_of_mem _ (ih h)

theorem assocUpdate_keys (acc : List (String × Route)) (k : String) (v : Route) :
    (assocUpdate acc k v).map Prod.fst = acc.map Prod.fst := by
  induction acc with
  | nil => simp [assocUpdate]
  | cons pr rest ih =>
    obtain ⟨k1, v1⟩ := pr
    simp only [assocUpdate]
    by_cases h : k1 = k
    · simp [h]
    · simp [h, ih]

theorem assocUpdate_mem (acc : List (String × Route)) (k : String) (v : Route)
    (pr : String × Route) (h : pr ∈ assocUpdate acc k v) :
    pr ∈ acc ∨ pr = (k, v) := by
  induction acc with
  | nil => simp [assocUpdate] at h
  | cons hd rest ih =>
    obtain ⟨k1, v1⟩ := hd
    simp only [assocUpdate] at h
    by_cases hk : k1 = k
    · rw [if_pos hk] at h
      rcases List.mem_cons.mp h with rfl | h
      · right
        rw [hk]
      · left
        exact List.mem_cons_of_mem _ h
    · rw [if_neg hk] at h
      rcases List.mem_cons.mp h with rfl | h
      · left
        exact List.mem_cons_self _ _
      · rcases ih h with h' | h'
        · exact Or.inl (List.mem_cons_of_mem _ h')
        · exact Or.inr h'

theorem mergeSourcesR_path (e r : Route) : (mergeSourcesR e r).path = e.path := by
  simp only [mergeSourcesR]
  split <;> rfl

theorem mergeSourcesR_name (e r : Route) : (mergeSourcesR e r).name = e.name := by
  simp only [mergeSourcesR]
  split <;> rfl

theorem mergeNameR_path (r1 r : Route) : (mergeNameR r1 r).path = r1.path := by
  rcases hn : r.name with _ | v
  · simp [mergeNameR, hn]
  · rcases h1 : r1.name with _ | ev
    · simp [mergeNameR, hn, h1]
    · simp only [mergeNameR, hn, h1]
      split <;> rfl

theorem mergeRoute_path (e r : Route) : (mergeRoute e r).path = e.path := by
  rw [mergeRoute, mergeNameR_path, mergeSourcesR_path]

theorem insertRoute_keys (acc : List (String × Route)) (r : Route) (k : String) :
    k ∈ (insertRoute acc r).map Prod.fst ↔
      k ∈ acc.map Prod.fst ∨ k = normalize_path r.path := by
  simp only [insertRoute]
  rcases hf : assocFind acc (normalize_path r.path) with _ | e
  · simp
  · rw [assocUpdate_keys]
    constructor
    · exact Or.inl
    · rintro (h | hk)
      · exact h
      · have hmem := assocFind_some_mem acc _ e hf
        rw [hk]
        exact List.mem_map.mpr ⟨(normalize_path r.path, e), hmem, rfl⟩

theorem insertRoute_wf (acc : List (String × Route)) (r : Route)
    (h1 : (acc.map Prod.fst).Nodup)
    (h2 : ∀ pr ∈ acc, (Prod.snd pr).path = pr.1) :
    ((insertRoute acc r).map Prod.fst).Nodup
    ∧ ∀ pr ∈ insertRoute acc r, (Prod.snd pr).path = pr.1 := by
  simp only [insertRoute]
  rcases hf : assocFind acc (normalize_path r.path) with _ | e
  · have hnot : normalize_path r.path ∉ acc.map Prod.fst :=
      (assocFind_eq_none acc _).mp hf
    constructor
    · rw [List.map_append]
      simp only [List.map_cons, List.map_nil]
      rw [List.nodup_append]
      exact ⟨h1, List.nodup_singleton _, by simpa using fun h => hnot h⟩
    · intro pr hpr
      rcases List.mem_append.mp hpr with h | h
      · exact h2 pr h
      · rcases List.mem_singleton.mp h with rfl
        rfl
  · constructor
    · rw [assocUpdate_keys]
      exact h1
    · intro pr hpr
      rcases assocUpdate_mem acc _ _ pr hpr with h | rfl
      · exact h2 pr h
      · have he : e.path = normalize_path r.path := by
          have hmem := assocFind_some_mem acc _ e hf
          exact h2 _ hmem
        simpa [mergeRoute_path] using he

theorem foldl_insert_wf (rs : List Route) : ∀ (acc : List (String × Route)),
    (acc.map Prod.fst).Nodup → (∀ pr ∈ acc, (Prod.snd pr).path = pr.1) →
    (((rs.foldl insertRoute acc).map Prod.fst).Nodup
      ∧ ∀ pr ∈ rs.foldl insertRoute acc, (Prod.snd pr).path = pr.1) := by
  induction rs with
  | nil => exact fun acc h1 h2 => ⟨h1, h2⟩
  | cons r rs ih =>
    intro acc h1 h2
    rw [List.foldl_cons]
    obtain ⟨h1', h2'⟩ := insertRoute_wf acc r h1 h2
    exact ih (insertRoute acc r) h1' h2'

theorem foldl_insert_keys (rs : List Route) : ∀ (acc : List (String × Route))
    (k : String), k ∈ (rs.foldl insertRoute acc).map Prod.fst ↔
      k ∈ acc.map Prod.fst ∨ ∃ r ∈ rs, normalize_path r.path = k := by
  induction rs with
  | nil => simp
  | cons r rs ih =>
    intro acc k
    rw [List.foldl_cons, ih, insertRoute_keys]
    constructor
    · rintro ((h | h) | ⟨r', hr', hn⟩)
      · exact Or.inl h
      · exact Or.inr ⟨r, List.mem_cons_self r rs, h.symm⟩
      · exact Or.inr ⟨r', List.mem_cons_of_mem r hr', hn⟩
    · rintro (h | ⟨r', hr', hn⟩)
      · exact Or.inl (Or.inl h)
      · rcases List.mem_cons.mp hr' with rfl | hr'
        · exact Or.inl (Or.inr hn.symm)
        · exact Or.inr ⟨r', hr', hn⟩

theorem canonicalize_eq_flatten (routes : List (List Route)) :
    canonicalize routes = (routes.flatten).foldl insertRoute [] :=
  (List.foldl_flatten insertRoute [] routes).symm

/-- C7: canonicalization deduplicates by normalized path — the inventory's
keys are exactly the normalized paths of the input candidates, with no key
occurring twice, and every stored record carries its key as its path; on
the concrete pair `/a//b/`, `/a/b` the result is the single record with
path `/a/b`. -/
theorem c7_unique_records (routes : List (List Route)) :
    ((canonicalize routes).map Prod.fst).Nodup
    ∧ (∀ pr ∈ canonicalize routes, (Prod.snd pr).path = pr.1)
    ∧ (∀ k, k ∈ (canonicalize routes).map Prod.fst ↔
        ∃ r ∈ routes.flatten, normalize_path r.path = k)
    ∧ canonicalize [[{ type := "通用路由", path := "/a//b/", source_file := "a.js" },
                     { type := "通用路由", path := "/a/b", source_file := "a.js" }]]
      = [("/a/b", { type := "通用路由", path := "/a/b", source_file := "a.js" })] := by
  have hwf := foldl_insert_wf routes.flatten [] (by simp) (by simp)
  rw [← canonicalize_eq_flatten] at hwf
  refine ⟨hwf.1, hwf.2, ?_, by decide⟩
  intro k
  rw [canonicalize_eq_flatten, foldl_insert_keys]
  simp

/-- Witness for C7: applying the theorem to a concrete one-candidate run,
the normalized path `/a/b` is a key of the resulting inventory. -/
theorem c7_witness :
    "/a/b" ∈ (canonicalize
      [[{ type := "通用路由", path := "/a//b/", source_file := "a.js" }]]).map
        Prod.fst :=
  ((c7_unique_records
      [[{ type := "通用路由", path := "/a//b/", source_file := "a.js" }]]).2.2.1
    "/a/b").mpr
    ⟨{ type := "通用路由", path := "/a//b/", source_file := "a.js" },
      by decide, by decide⟩

/-- C8: source merging is order-independent and stored sorted — merging
candidates for the same path from `a.js` and `b.js`, in either order,
serializes the source set as `"a.js, b.js"`, and a source contributing
twice is not duplicated. -/
theorem c8_source_union :
    (canonicalize [[{ type := "t", path := "/x", source_file := "a.js" },
                    { type := "t", path := "/x", source_file := "b.js" }]]).map
        (fun pr => (Prod.snd pr).source_file) = ["a.js, b.js"]
    ∧ (canonicalize [[{ type := "t", path := "/x", source_file := "b.js" },
                      { type := "t", path := "/x", source_file := "a.js" }]]).map
        (fun pr => (Prod.snd pr).source_file) = ["a.js, b.js"]
    ∧ (canonicalize [[{ type := "t", path := "/x", source_file := "a.js" },
                      { type := "t", path := "/x", source_file := "a.js" }]]).map
        (fun pr => (Prod.snd pr).source_file) = ["a.js"] := by
  refine ⟨by decide, by decide, by decide⟩

/-- C9: the serialized route artifact is sorted lexicographically ascending
by normalized path — adjacent (indeed, all) pairs of emitted records are
ordered by `pyStrLe` on their paths — and it is a permutation of the
canonical inventory's records. -/
theorem c9_sorted_artifact (routes : List (List Route)) :
    List.Pairwise (fun a b : Route => pyStrLe a.path b.path = true)
      (final_routes routes)
    ∧ (final_routes routes).Perm ((canonicalize routes).map Prod.snd) := by
  constructor
  · have h := ssort_pairwise routeLe
      (fun a b c h1 h2 => pyStrLe_trans a.path b.path c.path h1 h2)
      (fun a b => pyStrLe_total a.path b.path)
      ((canonicalize routes).map Prod.snd)
    exact h
  · exact ssort_perm routeLe _

theorem mergeNameR_keeps (r1 rt : Route) (ev : PyVal)
    (h1 : r1.name = Option.some ev) (h2 : pyFalsy ev = false) :
    (mergeNameR r1 rt).name = r1.name := by
  rcases hn : rt.name with _ | v
  · simp [mergeNameR, hn]
  · simp [mergeNameR, hn, h1, h2]

/-- C5 (amended): a record name, once set to a truthy (non-`None`,
non-empty) value, is never overwritten or cleared by any later merge; and
in the claim's concrete scenario — one candidate without a name, one with
name `"X"`, merged in either order — the resulting record's name is `"X"`.
(A falsy stored name, such as the empty string, can still be replaced;
see the counterexample.) -/
theorem c5_name_first_writer (e rt : Route) (ev : PyVal)
    (h1 : e.name = Option.some ev) (h2 : pyFalsy ev = false) :
    (mergeRoute e rt).name = e.name
    ∧ (canonicalize [[{ type := "t", path := "/x", source_file := "a.js" },
                      { type := "t", name := Option.some (PyVal.str "X"),
                        path := "/x", source_file := "b.js" }]]).map
        (fun pr => (Prod.snd pr).name) = [Option.some (PyVal.str "X")]
    ∧ (canonicalize [[{ type := "t", name := Option.some (PyVal.str "X"),
                        path := "/x", source_file := "b.js" },
                      { type := "t", path := "/x", source_file := "a.js" }]]).map
        (fun pr => (Prod.snd pr).name) = [Option.some (PyVal.str "X")] := by
  refine ⟨?_, by decide, by decide⟩
  rw [mergeRoute, mergeNameR_keeps (mergeSourcesR e rt) rt ev ?_ h2,
    mergeSourcesR_name]
  rw [mergeSourcesR_name, h1]

/-- Witness for C5's amended theorem at a concrete record pair. -/
theorem c5_witness :
    (mergeRoute { type := "t", name := Option.some (PyVal.str "K"),
                  path := "/x", source_file := "a.js" }
        { type := "t", name := Option.some (PyVal.str "Z"),
          path := "/x", source_file := "b.js" }).name =
      ({ type := "t", name := Option.some (PyVal.str "K"),
         path := "/x", source_file := "a.js" } : Route).name
    ∧ (canonicalize [[{ type := "t", path := "/x", source_file := "a.js" },
                      { type := "t", name := Option.some (PyVal.str "X"),
                        path := "/x", source_file := "b.js" }]]).map
        (fun pr => (Prod.snd pr).name) = [Option.some (PyVal.str "X")]
    ∧ (canonicalize [[{ type := "t", name := Option.some (PyVal.str "X"),
                        path := "/x", source_file := "b.js" },
                      { type := "t", path := "/x", source_file := "a.js" }]]).map
        (fun pr => (Prod.snd pr).name) = [Option.some (PyVal.str "X")] :=
  c5_name_first_writer
    { type := "t", name := Option.some (PyVal.str "K"),
      path := "/x", source_file := "a.js" }
    { type := "t", name := Option.some (PyVal.str "Z"),
      path := "/x", source_file := "b.js" }
    (PyVal.str "K") rfl (by decide)

/-- C5 (counterexample): the claim's universal "once a record's name has
been set by an earlier candidate, no later candidate's name ever
overwrites it" fails — a 2-capture rule can capture an empty name, the
first candidate sets the record's name to `""`, and a later candidate's
name `"Y"` overwrites it (the code treats a falsy stored name as absent).
-/
theorem c5_counterexample :
    (canonicalize [[{ type := "t", name := Option.some (PyVal.str ""),
                      path := "/x", source_file := "a.js" },
                    { type := "t", name := Option.some (PyVal.str "Y"),
                      path := "/x", source_file := "b.js" }]]).map
        (fun pr => (Prod.snd pr).name) = [Option.some (PyVal.str "Y")] := by
  decide

/-! ### The extractor's scheme filtering (claim C1) -/

theorem except_bind_error (e : ε) (f : α → Except ε β) :
    (Except.error e >>= f) = (Except.error e : Except ε β) := rfl

theorem except_bind_ok (a : α) (f : α → Except ε β) :
    (Except.ok a >>= f) = f a := rfl

theorem processMatch_single (route_type rel : String) (gs : List PyVal)
    (new : List Route) (hlen : gs.length ≤ 1)
    (h : processMatch route_type rel gs = Except.ok new) :
    ∀ c ∈ new, startsWithScheme c.path = false := by
  rcases gs with _ | ⟨g1, _ | ⟨g2, t⟩⟩
  · simp [processMatch] at h
  · cases g1 with
    | none =>
      simp only [processMatch, Except.ok.injEq] at h
      subst h
      simp
    | str s =>
      simp only [processMatch] at h
      by_cases h0 : s = ""
      · rw [if_pos h0] at h
        injection h with h
        subst h
        simp
      · rw [if_neg h0] at h
        by_cases hs : startsWithScheme s = true
        · rw [if_pos hs] at h
          injection h with h
          subst h
          simp
        · rw [if_neg hs] at h
          by_cases hv : is_valid_route_str s = true
          · rw [if_pos hv] at h
            injection h with h
            subst h
            intro c hc
            rcases List.mem_singleton.mp hc with rfl
            simpa using hs
          · rw [if_neg hv] at h
            injection h with h
            subst h
            simp
  · exfalso
    simp only [List.length_cons] at hlen
    omega

theorem extract_no_scheme_aux (route_type rel : String) :
    ∀ (ms : List (List PyVal)) (acc cs : List Route),
      (∀ m ∈ ms, m.length ≤ 1) →
      (∀ c ∈ acc, startsWithScheme c.path = false) →
      ms.foldlM (fun routes gs => do
          let new ← processMatch route_type rel gs
          pure (routes ++ new)) acc = Except.ok cs →
      ∀ c ∈ cs, startsWithScheme c.path = false := by
  intro ms
  induction ms with
  | nil =>
    intro acc cs _ hacc h
    rw [List.foldlM_nil] at h
    injection h with h
    subst h
    exact hacc
  | cons m t ih =>
    intro acc cs hm hacc h
    rw [List.foldlM_cons] at h
    rcases hp : processMatch route_type rel m with e | new
    · rw [hp, except_bind_error, except_bind_error] at h
      exact Except.noConfusion h
    · rw [hp, except_bind_ok] at h
      rw [show (pure (acc ++ new) : Except String (List Route)) =
        Except.ok (acc ++ new) from rfl, except_bind_ok] at h
      refine ih (acc ++ new) cs (fun m' hm' => hm m' (List.mem_cons_of_mem m hm')) ?_ h
      intro c hc
      rcases List.mem_append.mp hc with hc | hc
      · exact hacc c hc
      · exact processMatch_single route_type rel m new
          (hm m (List.mem_cons_self m t)) hp c hc

/-- C1 (amended): every candidate emitted from a 1-capture rule match has a
path that does not begin with a network scheme — the guard
`not route_path.startswith(('http://', 'https://', 'ws://', 'wss://'))`
is applied in the 1-capture branch.  (The 2-capture named-route branch does
not apply this check; see the counterexample.) -/
theorem c1_no_scheme_single_capture (route_type rel : String)
    (ms : List (List PyVal)) (cs : List Route)
    (hm : ∀ m ∈ ms, m.length ≤ 1)
    (h : extract_with_patterns route_type rel ms = Except.ok cs) :
    ∀ c ∈ cs, startsWithScheme c.path = false :=
  extract_no_scheme_aux route_type rel ms [] cs hm (by simp) h

/-- Witness for C1's amended theorem: a concrete 1-capture match on
`/admin` yields a candidate, and its path carries no scheme. -/
theorem c1_witness :
    startsWithScheme
      (Route.path { type := "通用路由", name := Option.none,
                    path := "/admin", source_file := "app/main.js" }) = false :=
  c1_no_scheme_single_capture "通用路由" "app/main.js" [[PyVal.str "/admin"]]
    [{ type := "通用路由", name := Option.none, path := "/admin",
       source_file := "app/main.js" }]
    (by decide) rfl
    { type := "通用路由", name := Option.none, path := "/admin",
      source_file := "app/main.js" }
    (by decide)

/-- C1 (counterexample): a 2-capture (named-route) rule match whose path
begins with `https://` is NOT rejected — the scheme guard exists only in
the 1-capture branch, and `is_valid_route` accepts the URL — so the
candidate appears in the extractor's output with a scheme-prefixed path.
(Such a match really arises, e.g. from source text
`name: 'X', path: 'https://evil.com/admin'`.) -/
theorem c1_counterexample :
    extract_with_patterns "Vue路由" "app/main.js"
      [[PyVal.str "X", PyVal.str "https://evil.com/admin"]]
      = Except.ok [{ type := "Vue路由", name := Option.some (PyVal.str "X"),
                     path := "https://evil.com/admin",
                     source_file := "app/main.js" }]
    ∧ startsWithScheme "https://evil.com/admin" = true := ⟨rfl, rfl⟩

/-! ### Totality of the validity filter (claim C2) -/

/-- C2 (counterexample): the validity filter is not total on `None` — it
raises `TypeError` when the generator `all(c in './\\' for c in
route_path)` iterates over `None` — so "for every input path that is ...
None ... the filter returns a boolean verdict without raising" is false.
-/
theorem c2_counterexample :
    is_valid_route PyVal.none =
      Except.error "TypeError: argument of type NoneType is not iterable" := rfl

/-- C2 (amended): the validity filter is total on every actual string —
the empty string and arbitrary garbage text included — returning a boolean
verdict without raising; only the `None` input raises. -/
theorem c2_total_on_strings (s : String) :
    ∃ b : Bool, is_valid_route (PyVal.str s) = Except.ok b :=
  ⟨is_valid_route_str s, rfl⟩

/-! ### Probe totality (claim C4) -/

/-- C4: probing is total — probing a path set yields exactly one
`ProbeResult` per input path, and on any transport-level failure (the
`requests.get` call raising) the result has `status_code = 0`,
`content_length = 0`, `response_time = 0` and a populated `error` field;
no exception escapes `test_route`. -/
theorem c4_probe_totality (base_url : String) (paths : List String)
    (net : String → GetOutcome) :
    (runProbes base_url paths net).length = paths.length
    ∧ ∀ (p e : String),
        (test_route base_url p (GetOutcome.exc e)).status_code = 0
        ∧ (test_route base_url p (GetOutcome.exc e)).content_length = 0
        ∧ (test_route base_url p (GetOutcome.exc e)).response_time = 0
        ∧ (test_route base_url p (GetOutcome.exc e)).error = Option.some e := by
  refine ⟨?_, fun p e => ⟨rfl, rfl, rfl, rfl⟩⟩
  simp [runProbes]

/-! ### Analyzer claims (C3, C10) -/

/-- A probe result with a given content length (used for the concrete
clustering scenario). -/
def mkLenResult (u : String) (len : Int) : ProbeResult :=
  { url := u, status_code := 200, content_length := len, response_time := 0 }

/-- C3: a content length is differential/interesting iff its occurrence
count over the whole result sequence lies in `[1, 5]`; `unique_pages`
contains exactly the results with an interesting length, sorted ascending
by content length with original encounter order as the tiebreak on equal
lengths (the per-length slices of the output coincide with the input's);
and on lengths `[100 ×6, 42, 42, 7]` exactly the 42- and 7-length results
survive, in ascending order. -/
theorem c3_differential_clustering (results : List ProbeResult) :
    (∀ r, r ∈ (analyze_results results).1 ↔
        r ∈ results ∧ 1 ≤ length_count results r.content_length
          ∧ length_count results r.content_length ≤ 5)
    ∧ List.Pairwise (fun a b : ProbeResult =>
        a.content_length ≤ b.content_length) (analyze_results results).1
    ∧ (∀ L : Int, ((analyze_results results).1.filter
          (fun r => r.content_length == L))
        = results.filter (fun r => r.content_length == L
            && interestingLength results r.content_length))
    ∧ (analyze_results
        [mkLenResult "u1" 100, mkLenResult "u2" 100, mkLenResult "u3" 100,
         mkLenResult "u4" 100, mkLenResult "u5" 100, mkLenResult "u6" 100,
         mkLenResult "u7" 42, mkLenResult "u8" 42, mkLenResult "u9" 7]).1
      = [mkLenResult "u9" 7, mkLenResult "u7" 42, mkLenResult "u8" 42] := by
  refine ⟨?_, ?_, ?_, by decide⟩
  · intro r
    simp only [analyze_results, unique_pages, mem_ssort, List.mem_filter,
      interestingLength, Bool.and_eq_true, decide_eq_true_eq, and_assoc]
  · have h := ssort_pairwise probeLe
      (fun a b c h1 h2 => by
        simp only [probeLe, decide_eq_true_eq] at h1 h2 ⊢
        omega)
      (fun a b => by
        simp only [probeLe, decide_eq_true_eq]
        omega)
      (results.filter (fun r => interestingLength results r.content_length))
    exact h.imp (fun hxy => by
      simpa only [probeLe, decide_eq_true_eq] using hxy)
  · intro L
    have hstep : ((ssort probeLe (results.filter
        (fun r => interestingLength results r.content_length))).filter
          (fun r => r.content_length == L))
        = (results.filter
            (fun r => interestingLength results r.content_length)).filter
              (fun r => r.content_length == L) := by
      apply ssort_filter_class
      intro x hx y hy hpx hpy
      have hx' : x.content_length = L := by simpa using hpx
      have hy' : y.content_length = L := by simpa using hpy
      simp [probeLe, hx', hy']
    show ((ssort probeLe (results.filter
        (fun r => interestingLength results r.content_length))).filter
          (fun r => r.content_length == L)) = _
    rw [hstep, List.filter_filter]

theorem lookupPages_appendAt (acc : List (Int × List ProbeResult)) (k : Int)
    (r : ProbeResult) (key : Int) (x : ProbeResult) :
    x ∈ lookupPages (appendAt acc k r) key ↔
      x ∈ lookupPages acc key ∨ (k = key ∧ x = r) := by
  induction acc with
  | nil =>
    by_cases hk : k = key
    · simp [appendAt, lookupPages, hk]
    · simp [appendAt, lookupPages, hk]
  | cons hd rest ih =>
    obtain ⟨k1, rs⟩ := hd
    simp only [appendAt]
    by_cases h1 : k1 = k
    · rw [if_pos h1]
      simp only [lookupPages]
      by_cases h2 : k1 = key
      · rw [if_pos h2, if_pos h2]
        have hkk : k = key := h1 ▸ h2
        simp [List.mem_append, hkk]
      · rw [if_neg h2, if_neg h2]
        have hkk : ¬ k = key := h1 ▸ h2
        simp [hkk]
    · rw [if_neg h1]
      simp only [lookupPages]
      by_cases h2 : k1 = key
      · rw [if_pos h2, if_pos h2]
        have hkk : ¬ k = key := fun hc => h1 (h2.trans hc.symm)
        simp [hkk]
      · rw [if_neg h2, if_neg h2]
        exact ih

theorem lookup_fold_mono (l : List ProbeResult) :
    ∀ (acc : List (Int × List ProbeResult)) (x : ProbeResult) (key : Int),
      x ∈ lookupPages acc key →
      x ∈ lookupPages
        (l.foldl (fun acc r =>
          if r.status_code ≠ 404 then appendAt acc r.status_code r else acc)
          acc) key := by
  induction l with
  | nil => exact fun acc x key h => h
  | cons a t ih =>
    intro acc x key h
    rw [List.foldl_cons]
    apply ih
    by_cases hs : a.status_code ≠ 404
    · rw [if_pos hs]
      exact (lookupPages_appendAt acc a.status_code a key x).mpr (Or.inl h)
    · rw [if_neg hs]
      exact h

theorem mem_lookup_fold (l : List ProbeResult) :
    ∀ (acc : List (Int × List ProbeResult)) (r : ProbeResult),
      r ∈ l → r.status_code ≠ 404 →
      r ∈ lookupPages
        (l.foldl (fun acc r =>
          if r.status_code ≠ 404 then appendAt acc r.status_code r else acc)
          acc) r.status_code := by
  induction l with
  | nil => intro acc r hr; exact absurd hr (List.not_mem_nil r)
  | cons a t ih =>
    intro acc r hr hs
    rw [List.foldl_cons]
    rcases List.mem_cons.mp hr with rfl | hr
    · rw [if_pos hs]
      apply lookup_fold_mono
      exact (lookupPages_appendAt acc r.status_code r r.status_code r).mpr
        (Or.inr ⟨rfl, rfl⟩)
    · exact ih _ r hr hs

/-- C10: transport-failure results (status code 0) are counted as non-error
pages and participate in clustering — every result with `status_code = 0`
appears in the analyzer's `non_404_pages` grouping under key `0`, and its
content length is counted in the content-length histogram like any other
result's. -/
theorem c10_failures_clustered (results : List ProbeResult) (r : ProbeResult)
    (hr : r ∈ results) (h0 : r.status_code = 0) :
    r ∈ lookupPages (analyze_results results).2 0
    ∧ 1 ≤ length_count results r.content_length := by
  constructor
  · have hne : r.status_code ≠ 404 := by rw [h0]; decide
    have h := mem_lookup_fold results [] r hr hne
    rw [h0] at h
    exact h
  · have hmem : r ∈ results.filter (fun x => x.content_length == r.content_length) :=
      List.mem_filter.mpr ⟨hr, by simp⟩
    exact List.length_pos_of_mem hmem

/-- Witness for C10: a concrete timed-out probe result lands in the
non-error grouping under key 0 and is counted in the histogram. -/
theorem c10_witness :
    ({ url := "u", status_code := 0, content_length := 0, response_time := 0,
       error := Option.some "timeout" } : ProbeResult) ∈
        lookupPages (analyze_results
          [{ url := "u", status_code := 0, content_length := 0,
             response_time := 0, error := Option.some "timeout" }]).2 0
    ∧ 1 ≤ length_count
        [{ url := "u", status_code := 0, content_length := 0,
           response_time := 0, error := Option.some "timeout" }]
        ({ url := "u", status_code := 0, content_length := 0,
           response_time := 0,
           error := Option.some "timeout" } : ProbeResult).content_length :=
  c10_failures_clustered _ _ (by decide) (by decide)
